import Mathlib

/-
Verification of the workout sheet layout engine of `src/workout_template.py`.

Units: the source measures every vertical quantity as an integer multiple of
the reportlab constant `mm` (page height 297*mm, margin 12*mm, header offset
10*mm, row drops 8*mm and 7*mm, gaps 1*mm and 7*mm, break bound
margin + 30*mm).  All comparisons are homogeneous in `mm`, so we divide it
out and work with exact integers denominated in millimetres.
-/

namespace FitnessWorkout

/-- Whether a rendered row is the block's primary exercise or a paired partner
(lines 118 and 147 of `workout_template.py`). -/
inductive Kind where
  | primary
  | partner
deriving DecidableEq

/-- An exercise catalog record, as consumed by `render_workout_pdf`
(lines 104-108): `name`, `sets`, `comment` and `rest` are optional dict keys,
`reps` is the list joined with a dash. -/
structure Exercise where
  name : Option String
  sets : Option Int
  reps : List Int
  comment : Option String
  rest : Option Int
deriving DecidableEq

/-- A workout record, as consumed by `render_workout_pdf` (lines 80-88). -/
structure Workout where
  id : Option Int
  name : Option String
  exercises : List Int
  paired_sets : List (List Int)
deriving DecidableEq

/-- A block: one primary exercise id plus the partner ids pulled into its
group by the pairing walk (spec section 4.2; code lines 94-149). -/
structure Block where
  primary : Int
  partners : List Int
deriving DecidableEq

/-- One drawn exercise row together with its layout trace: the page it lands
on, the cursor value at the page-break check (`yCheck`), whether the check
forced a break (`broke`), and the cursor the row is drawn at (`yDraw`). -/
structure Placement where
  exId : Int
  kind : Kind
  page : Nat
  yCheck : Int
  broke : Bool
  yDraw : Int
  name : String
  sets : Int
  reps : String
  comment : String
  rest : Option Int
deriving DecidableEq

/-- Python dict lookup on an association list (first matching key wins). -/
def lookupList : List (Int × List Int) → Int → List Int
  | [], _ => []
  | kv :: rest, k => if kv.1 = k then kv.2 else lookupList rest k

/-- `pairs.setdefault(a, []).append(b)` on an insertion-ordered dict
(line 26/27 of the source): update `a`'s list in place if the key exists,
otherwise append a fresh binding at the end. -/
def addPair : List (Int × List Int) → Int → Int → List (Int × List Int)
  | [], a, b => [(a, [b])]
  | kv :: rest, a, b =>
      if kv.1 = a then (kv.1, kv.2 ++ [b]) :: rest else kv :: addPair rest a b

/-- One iteration of the loop in `find_pairs_map` (lines 22-27): skip the
declaration when all of its values are falsy (`not any(pair)`) or it has
fewer than two values; otherwise take the first two values `a`, `b` and
append `b` to `a`'s partner list and `a` to `b`'s. -/
def applyDecl (m : List (Int × List Int)) (pair : List Int) : List (Int × List Int) :=
  if (∀ v ∈ pair, v = 0) ∨ pair.length < 2 then m
  else
    match pair with
    | a :: b :: _ => addPair (addPair m a b) b a
    | _ => m

/-- `find_pairs_map` (lines 20-28): fold the declarations into an
insertion-ordered id-to-partner-list map. -/
def find_pairs_map (paired_sets : List (List Int)) : List (Int × List Int) :=
  paired_sets.foldl applyDecl []

/-- Python `str(int)`. -/
def intStr (n : Int) : String := toString n

/-- `"-".join(map(str, reps))` (lines 106 and 135). -/
def joinDash (xs : List Int) : String := String.intercalate "-" (xs.map intStr)

/-- `reps.replace("-99", "+")` (line 63): left-to-right, non-overlapping
replacement of every occurrence of `-99` by `+`. -/
def replaceDash99 : List Char → List Char
  | '-' :: '9' :: '9' :: rest => '+' :: replaceDash99 rest
  | c :: rest => c :: replaceDash99 rest
  | [] => []

/-- The reps text as drawn by `_draw_exercise_entry` (line 63). -/
def repsDisplay (s : String) : String := String.mk (replaceDash99 s.data)

/-- Python `str.strip()` (lines 107 and 136): drop whitespace from both
ends. -/
def pyStrip (s : String) : String :=
  String.mk ((((s.data.dropWhile Char.isWhitespace).reverse.dropWhile
    Char.isWhitespace)).reverse)

/-- Exercise catalog lookup, `exercises_map.get(ex_id)` (lines 97 and 126). -/
def lookupEx : List (Int × Exercise) → Int → Option Exercise
  | [], _ => none
  | kv :: rest, k => if kv.1 = k then some kv.2 else lookupEx rest k

/-- Page height in mm (`A4` portrait, line 77). -/
def pageH : Int := 297

/-- Left/bottom margin in mm (line 78). -/
def margin : Int := 12

/-- The cursor value at the top of every page: `page_h - margin - 10*mm`
(lines 84, 115, 144). -/
def yTop : Int := pageH - margin - 10

/-- The page-break bound `margin + 30*mm` of the checks at lines 110 and
139: a break fires exactly when the cursor is below it. -/
def breakLimit : Int := margin + 30

/-- The mutable state of the rendering loop: vertical cursor `y`, current
page index, the `rendered` set (kept as the list of ids in draw order, which
has the same membership as the Python set), the two loop-carried locals
`reps` (line 106) and `partner_reps` (line 135) which start out unassigned,
the pages on which the title header has been drawn, and the rows drawn so
far. -/
structure RState where
  y : Int
  page : Nat
  rendered : List Int
  repsLoc : Option String
  partnerRepsLoc : Option String
  headerPages : List Nat
  out : List Placement
deriving DecidableEq

/-- The state before the loop: cursor at `page_h - margin - 10*mm`
(line 84), page 0 with its header already drawn (lines 81-82), nothing
rendered, both reps locals unassigned. -/
def initState : RState :=
  { y := yTop, page := 0, rendered := [], repsLoc := none,
    partnerRepsLoc := none, headerPages := [0], out := [] }

/-- The page index an entry checked at state `st` is drawn on (lines
110-115 / 139-144): bumped by one exactly when the cursor is below
`breakLimit`. -/
def emitPage (st : RState) : Nat :=
  if st.y < breakLimit then st.page + 1 else st.page

/-- The cursor an entry checked at state `st` is drawn at: reset to the top
of a fresh page on a break, unchanged otherwise. -/
def emitY (st : RState) : Int :=
  if st.y < breakLimit then yTop else st.y

/-- The placement recorded for one drawn row. -/
def emitPlacement (k : Kind) (i : Int) (nm : String) (sv : Int) (r : String)
    (cm : String) (rst : Option Int) (st : RState) : Placement :=
  { exId := i, kind := k, page := emitPage st, yCheck := st.y,
    broke := decide (st.y < breakLimit), yDraw := emitY st,
    name := nm, sets := sv, reps := repsDisplay r, comment := cm, rest := rst }

/-- Draw one exercise row: run the page-break check (lines 110-115 /
139-144), draw the row (lines 118 / 147), drop the cursor by the row height
(`8*mm` for a primary, `7*mm` for a partner) and add the id to `rendered`
(lines 121 / 149). -/
def emit (k : Kind) (i : Int) (nm : String) (sv : Int) (r : String)
    (cm : String) (rst : Option Int) (drop : Int) (st : RState) : RState :=
  { y := emitY st - drop,
    page := emitPage st,
    rendered := st.rendered ++ [i],
    repsLoc := st.repsLoc,
    partnerRepsLoc := st.partnerRepsLoc,
    headerPages :=
      if st.y < breakLimit then st.headerPages ++ [st.page + 1]
      else st.headerPages,
    out := st.out ++ [emitPlacement k i nm sv r cm rst st] }

/-- Process one primary exercise (lines 97-121).  When the catalog lookup
misses, the placeholder branch (lines 98-102) sets the name to
`Exercise #<id> (missing)`, sets to 3, comment to the empty string and rest
to None, but never assigns the local `reps`; the draw call at line 118 then
reads `reps`, so it raises `UnboundLocalError` if no earlier catalog hit
assigned it, and otherwise silently reuses the stale value. -/
def stepPrimary (m : List (Int × Exercise)) (e : Int) (st : RState) :
    Except String RState :=
  match lookupEx m e with
  | none =>
      match st.repsLoc with
      | none => Except.error "UnboundLocalError"
      | some r =>
          Except.ok (emit Kind.primary e
            ("Exercise #" ++ intStr e ++ " (missing)") 3 r "" none 8 st)
  | some ex =>
      Except.ok (emit Kind.primary e (ex.name.getD ("#" ++ intStr e))
        (ex.sets.getD 3) (joinDash ex.reps) (pyStrip (ex.comment.getD ""))
        ex.rest 8 { st with repsLoc := some (joinDash ex.reps) })

/-- Process one partner exercise (lines 126-149); same shape as
`stepPrimary` but with the `partner_reps` local (line 135) and a `7*mm`
row drop (line 148). -/
def stepPartner (m : List (Int × Exercise)) (e : Int) (st : RState) :
    Except String RState :=
  match lookupEx m e with
  | none =>
      match st.partnerRepsLoc with
      | none => Except.error "UnboundLocalError"
      | some r =>
          Except.ok (emit Kind.partner e
            ("Exercise #" ++ intStr e ++ " (missing)") 3 r "" none 7 st)
  | some ex =>
      Except.ok (emit Kind.partner e (ex.name.getD ("#" ++ intStr e))
        (ex.sets.getD 3) (joinDash ex.reps) (pyStrip (ex.comment.getD ""))
        ex.rest 7 { st with partnerRepsLoc := some (joinDash ex.reps) })

/-- Line 123: `[p for p in pairs_map.get(ex_id, []) if p in exercises and
p not in rendered]`, where `rendered` already contains the primary. -/
def partnersOf (pm : List (Int × List Int)) (allEx rendered : List Int)
    (e : Int) : List Int :=
  (lookupList pm e).filter (fun p => decide (p ∈ allEx ∧ p ∉ rendered))

/-- The inner partner loop (lines 125-149). -/
def processPartners (m : List (Int × Exercise)) :
    List Int → RState → Except String RState
  | [], st => Except.ok st
  | pid :: ps, st =>
      match stepPartner m pid st with
      | Except.error s => Except.error s
      | Except.ok st1 => processPartners m ps st1

/-- The main loop over the workout's exercise list (lines 94-153): skip ids
already rendered, draw the primary, pull in the not-yet-rendered partners,
then drop the cursor by the trailing gap (`1*mm` extra after a block with
partners, `7*mm` always). -/
def processExercises (m : List (Int × Exercise)) (pm : List (Int × List Int))
    (allEx : List Int) : List Int → RState → Except String RState
  | [], st => Except.ok st
  | e :: rest, st =>
      if e ∈ st.rendered then processExercises m pm allEx rest st
      else
        match stepPrimary m e st with
        | Except.error s => Except.error s
        | Except.ok st1 =>
            match partnersOf pm allEx st1.rendered e with
            | [] => processExercises m pm allEx rest { st1 with y := st1.y - 7 }
            | p :: ps =>
                match processPartners m (p :: ps) st1 with
                | Except.error s => Except.error s
                | Except.ok st2 =>
                    processExercises m pm allEx rest
                      { st2 with y := st2.y - 1 - 7 }

/-- `render_workout_pdf` (lines 76-155), abstracted from the drawing
backend: returns the drawn placements and the pages carrying the title
header, or the uncaught Python exception. -/
def render_workout_pdf (w : Workout) (m : List (Int × Exercise)) :
    Except String (List Placement × List Nat) :=
  match processExercises m (find_pairs_map w.paired_sets) w.exercises
      w.exercises initState with
  | Except.error s => Except.error s
  | Except.ok st => Except.ok (st.out, st.headerPages)

/-- The block view of the same walk (spec section 4.2): the same skip test,
the same partner computation, the same `rendered` evolution, but collecting
`Block`s instead of threading page state. -/
def seqGo (pm : List (Int × List Int)) (allEx : List Int) :
    List Int → List Int → List Block
  | [], _ => []
  | e :: rest, rendered =>
      if e ∈ rendered then seqGo pm allEx rest rendered
      else
        let ps := partnersOf pm allEx (rendered ++ [e]) e
        { primary := e, partners := ps } :: seqGo pm allEx rest (rendered ++ e :: ps)

/-- The Entry Sequencer: the workout's exercise list resolved into blocks. -/
def sequenceBlocks (exercises : List Int) (pm : List (Int × List Int)) :
    List Block :=
  seqGo pm exercises exercises []

/-- The (id, kind) sequence a block list flattens to: primary first, then
its partners in order. -/
def blockEntryList : List Block → List (Int × Kind)
  | [] => []
  | b :: bs =>
      (b.primary, Kind.primary) ::
        (b.partners.map (fun q => (q, Kind.partner)) ++ blockEntryList bs)

/-- All ids of a block list, in entry order. -/
def blockIds : List Block → List Int
  | [] => []
  | b :: bs => b.primary :: (b.partners ++ blockIds bs)

/-- Index of the first occurrence of `x` (length of the list when absent). -/
def firstIdx : List Int → Int → Nat
  | [], _ => 0
  | e :: rest, x => if e = x then 0 else firstIdx rest x + 1

/-- The successful result of a render, for stating concrete facts
(`([], [])` is never hit on the inputs we evaluate it at). -/
def renderOk (w : Workout) (m : List (Int × Exercise)) :
    List Placement × List Nat :=
  ((render_workout_pdf w m).toOption).getD ([], [])

/-- The id sequence of a successful render. -/
def renderIds (w : Workout) (m : List (Int × Exercise)) : List Int :=
  (renderOk w m).1.map (fun p => p.exId)

/-- A placeholder-free catalog fixture: every listed id maps to the same
small exercise record. -/
def mkCatalog (ids : List Int) : List (Int × Exercise) :=
  ids.map (fun i =>
    (i, { name := some "Row", sets := some 3, reps := [5, 8],
          comment := none, rest := some 60 }))

/-- Entry height in mm as the spec's break formula uses it: the row drop of
a primary is 8, of a partner 7. -/
def entryHeightQ : Kind → ℚ
  | Kind.primary => 8
  | Kind.partner => 7

/-- Workout with the pair declaration (2,4) given twice. -/
def inputC1 : Workout :=
  { id := none, name := none, exercises := [2, 4], paired_sets := [[2, 4], [2, 4]] }

/-- Small well-formed workout: two exercises, one pair. -/
def inputC1w : Workout :=
  { id := none, name := none, exercises := [1, 2], paired_sets := [[1, 2]] }

/-- Workout referencing exercise 99, rendered against an empty catalog. -/
def inputC2 : Workout :=
  { id := none, name := none, exercises := [99], paired_sets := [] }

/-- Seventeen exercises with one pair: its sixteenth block is checked with
the cursor exactly at 42 mm, and no break fires there. -/
def inputA : Workout :=
  { id := none, name := none,
    exercises := [1, 2, 3, 4, 5, 6, 7, 8, 9, 10, 11, 12, 13, 14, 15, 16, 17],
    paired_sets := [[1, 2]] }

/-- Catalog for `inputA`. -/
def catalogA : List (Int × Exercise) := mkCatalog inputA.exercises

/-- Eighteen exercises with three pairs: the final partner is checked with
the cursor at 41 mm and a break fires before it. -/
def inputB : Workout :=
  { id := none, name := none,
    exercises := [1, 2, 3, 4, 5, 6, 7, 8, 9, 10, 11, 12, 13, 14, 15, 16, 17, 18],
    paired_sets := [[1, 2], [3, 4], [17, 18]] }

/-- Catalog for `inputB`. -/
def catalogB : List (Int × Exercise) := mkCatalog inputB.exercises

/-- One-exercise workout used to instantiate the pagination theorem. -/
def inputC5w : Workout :=
  { id := none, name := none, exercises := [7], paired_sets := [] }

/-- Three exercises with one pair, for the block decomposition witness. -/
def inputC6w : Workout :=
  { id := none, name := none, exercises := [1, 2, 3], paired_sets := [[1, 3]] }

/-- The spec's example scenario: exercises [1,2,3,4] with the single pair
declaration (2,4). -/
def inputC7 : Workout :=
  { id := none, name := none, exercises := [1, 2, 3, 4], paired_sets := [[2, 4]] }

/-- Two unrelated exercises, for the pagination monotonicity witness. -/
def inputC9w : Workout :=
  { id := none, name := none, exercises := [3, 5], paired_sets := [] }

/-- Exercise 4 listed twice and its pair declared twice. -/
def inputC10 : Workout :=
  { id := none, name := none, exercises := [2, 4, 4], paired_sets := [[2, 4], [2, 4]] }

/-- Exercise 5 listed twice, no pairs. -/
def inputC10w : Workout :=
  { id := none, name := none, exercises := [5, 5], paired_sets := [] }

/-- The (id, kind) view of a placement. -/
def entryOf (p : Placement) : Int × Kind := (p.exId, p.kind)

/-- Overwrite the loop-carried `reps` local. -/
def setReps (st : RState) (r : Option String) : RState := { st with repsLoc := r }

/-- Overwrite the loop-carried `partner_reps` local. -/
def setPartnerReps (st : RState) (r : Option String) : RState :=
  { st with partnerRepsLoc := r }

/-- The pagination invariant of the rendering loop: `rendered` lists the
drawn ids in order, page indices are sorted and bounded by the current page,
every recorded break matches the cursor test against `breakLimit`, rows are
drawn at the checked cursor unless a break reset it to `yTop`, every page an
entry lands on carries the header (as does page 0), and consecutive rows
advance the page by exactly one at a break and not at all otherwise. -/
structure TraceInv (st : RState) : Prop where
  ren_eq : st.rendered = st.out.map (fun p => p.exId)
  pages_mono : (st.out.map (fun p => p.page)).Pairwise (· ≤ ·)
  pages_le : ∀ p ∈ st.out, p.page ≤ st.page
  break_iff : ∀ p ∈ st.out, ((p.broke = true) ↔ p.yCheck < breakLimit)
  draw_y : ∀ p ∈ st.out, p.yDraw = (if p.broke = true then yTop else p.yCheck)
  head_mem : ∀ p ∈ st.out, p.page ∈ st.headerPages
  page_mem : st.page ∈ st.headerPages
  zero_mem : (0 : Nat) ∈ st.headerPages
  chain : List.Chain'
    (fun p q => q.page = if q.broke = true then p.page + 1 else p.page) st.out
  last_page : ∀ p, st.out.getLast? = some p → p.page = st.page

/-- Lookup after `addPair`: the key being updated gets the value appended,
every other key is untouched. -/
theorem lookupList_addPair (m : List (Int × List Int)) (a b x : Int) :
    lookupList (addPair m a b) x =
      if x = a then lookupList m x ++ [b] else lookupList m x := by
  induction m with
  | nil =>
      by_cases h : x = a
      · subst h; simp [addPair, lookupList]
      · have h2 : a ≠ x := fun hh => h hh.symm
        simp [addPair, lookupList, h, h2]
  | cons kv rest ih =>
      by_cases hk : kv.1 = a
      · by_cases hx : x = a
        · subst hx
          simp [addPair, lookupList, hk]
        · have h2 : kv.1 ≠ x := fun hh => hx ((hh.symm).trans hk)
          have h3 : a ≠ x := fun hh => hx hh.symm
          simp [addPair, lookupList, hk, hx, h2, h3]
      · by_cases hx : kv.1 = x
        · have h2 : x ≠ a := fun h => hk (hx.trans h)
          simp [addPair, lookupList, hk, hx, h2]
        · simp [addPair, lookupList, hk, hx, ih]

/-- Membership form of `lookupList_addPair`. -/
theorem mem_lookupList_addPair (m : List (Int × List Int)) (a b x y : Int) :
    y ∈ lookupList (addPair m a b) x ↔
      y ∈ lookupList m x ∨ (x = a ∧ y = b) := by
  rw [lookupList_addPair]
  by_cases h : x = a <;> simp [h]

/-- `applyDecl` never removes an adjacency. -/
theorem mem_lookupList_applyDecl_of_mem (m : List (Int × List Int))
    (p : List Int) (x y : Int) (h : y ∈ lookupList m x) :
    y ∈ lookupList (applyDecl m p) x := by
  unfold applyDecl
  split
  · exact h
  · match p with
    | [] => exact h
    | [a] => exact h
    | a :: b :: rest =>
        simp only [mem_lookupList_addPair]
        exact Or.inl (Or.inl h)

/-- One declaration step preserves symmetry of the adjacency map. -/
theorem symm_applyDecl (m : List (Int × List Int)) (p : List Int)
    (h : ∀ a b : Int, a ∈ lookupList m b ↔ b ∈ lookupList m a) :
    ∀ a b : Int,
      a ∈ lookupList (applyDecl m p) b ↔ b ∈ lookupList (applyDecl m p) a := by
  intro a b
  unfold applyDecl
  split
  · exact h a b
  · match p with
    | [] => exact h a b
    | [c] => exact h a b
    | c :: d :: rest =>
        simp only [mem_lookupList_addPair]
        constructor
        · rintro ((hm | ⟨rfl, rfl⟩) | ⟨rfl, rfl⟩)
          · exact Or.inl (Or.inl ((h a b).mp hm))
          · exact Or.inr ⟨rfl, rfl⟩
          · exact Or.inl (Or.inr ⟨rfl, rfl⟩)
        · rintro ((hm | ⟨rfl, rfl⟩) | ⟨rfl, rfl⟩)
          · exact Or.inl (Or.inl ((h b a).mp hm))
          · exact Or.inr ⟨rfl, rfl⟩
          · exact Or.inl (Or.inr ⟨rfl, rfl⟩)

/-- Folding declarations preserves symmetry. -/
theorem symm_foldl (l : List (List Int)) :
    ∀ m, (∀ a b : Int, a ∈ lookupList m b ↔ b ∈ lookupList m a) →
      ∀ a b : Int,
        a ∈ lookupList (l.foldl applyDecl m) b ↔
          b ∈ lookupList (l.foldl applyDecl m) a := by
  induction l with
  | nil => intro m h; exact h
  | cons p l ih => intro m h; exact ih _ (symm_applyDecl m p h)

/-- Folding declarations never removes an adjacency. -/
theorem mem_foldl_of_mem (l : List (List Int)) :
    ∀ m x y, y ∈ lookupList m x → y ∈ lookupList (l.foldl applyDecl m) x := by
  induction l with
  | nil => intro m x y h; exact h
  | cons p l ih =>
      intro m x y h
      exact ih _ _ _ (mem_lookupList_applyDecl_of_mem _ _ _ _ h)

/-- A two-value declaration occurring in the list and not skipped ends up in
the adjacency map, in both directions. -/
theorem mem_fpm_of_decl (l : List (List Int)) (a b : Int) :
    ∀ m, [a, b] ∈ l → ¬(a = 0 ∧ b = 0) →
      b ∈ lookupList (l.foldl applyDecl m) a ∧
        a ∈ lookupList (l.foldl applyDecl m) b := by
  induction l with
  | nil => simp
  | cons p l ih =>
      intro m hm hz
      rcases List.mem_cons.mp hm with h | h
      · subst h
        have hcond : ¬((∀ v ∈ [a, b], v = 0) ∨ ([a, b] : List Int).length < 2) := by
          rintro (hall | hlen)
          · exact hz ⟨hall a (by simp), hall b (by simp)⟩
          · simp at hlen
        have hstep : applyDecl m [a, b] = addPair (addPair m a b) b a := by
          simp only [applyDecl, if_neg hcond]
        simp only [List.foldl_cons]
        constructor
        · apply mem_foldl_of_mem
          rw [hstep]
          simp [mem_lookupList_addPair]
        · apply mem_foldl_of_mem
          rw [hstep]
          simp [mem_lookupList_addPair]
      · simp only [List.foldl_cons]
        exact ih _ h hz

/-- C8: the adjacency map built by `find_pairs_map` is symmetric — for all
identifiers `a`, `b`, `b` is in `a`'s partner list iff `a` is in `b`'s. -/
theorem c8_theorem (l : List (List Int)) (a b : Int) :
    b ∈ lookupList (find_pairs_map l) a ↔
      a ∈ lookupList (find_pairs_map l) b :=
  symm_foldl l [] (by intro a b; simp [lookupList]) b a

/-- C3 counterexample: the self-pair declaration (2,2) is not skipped — it
produces the singleton adjacency map mapping 2 to [2, 2], not the empty
map. -/
theorem c3_counterexample :
    find_pairs_map [[2, 2]] = [(2, [2, 2])] ∧
      find_pairs_map [[2, 2]] ≠ find_pairs_map [] := by
  constructor <;> decide

/-- C3 (amended): the resolver skips (without raising) every declaration
that is empty, has all its values zero, or has fewer than two values, and a
skipped declaration contributes nothing to the adjacency map; but a
self-pair with a nonzero identifier is accepted and appends the identifier
twice to its own partner list. -/
theorem c3_theorem :
    (∀ (l1 l2 : List (List Int)) (pair : List Int),
        ((∀ v ∈ pair, v = 0) ∨ pair.length < 2) →
          find_pairs_map (l1 ++ pair :: l2) = find_pairs_map (l1 ++ l2)) ∧
      (∀ (l : List (List Int)) (a : Int), a ≠ 0 →
          lookupList (find_pairs_map (l ++ [[a, a]])) a =
            lookupList (find_pairs_map l) a ++ [a, a]) := by
  constructor
  · intro l1 l2 pair h
    have hskip : applyDecl (find_pairs_map l1) pair = find_pairs_map l1 := by
      simp only [applyDecl, if_pos h]
    simp only [find_pairs_map, List.foldl_append, List.foldl_cons] at hskip ⊢
    rw [hskip]
  · intro l a ha
    have hcond : ¬((∀ v ∈ [a, a], v = 0) ∨ ([a, a] : List Int).length < 2) := by
      rintro (hall | hlen)
      · exact ha (hall a (by simp))
      · simp at hlen
    have hfold : find_pairs_map (l ++ [[a, a]]) =
        applyDecl (find_pairs_map l) [a, a] := by
      simp [find_pairs_map, List.foldl_append]
    rw [hfold]
    simp only [applyDecl, if_neg hcond]
    rw [lookupList_addPair, lookupList_addPair]
    simp

/-- C3 witness: the empty declaration appended between [1,2] and nothing
changes no adjacency, and the nonzero self-pair (3,3) appends 3 twice to its
own partner list. -/
theorem c3_witness :
    find_pairs_map ([[1, 2]] ++ [] :: []) = find_pairs_map ([[1, 2]] ++ []) ∧
      lookupList (find_pairs_map ([] ++ [[3, 3]])) 3 =
        lookupList (find_pairs_map []) 3 ++ [3, 3] :=
  ⟨c3_theorem.1 [[1, 2]] [] [] (Or.inl (by decide)),
    c3_theorem.2 [] 3 (by decide)⟩

/-- C4 counterexample: declaring the pair (1,2) twice does not produce the
same adjacency map as declaring it once — the partner lists gain duplicate
entries. -/
theorem c4_counterexample :
    find_pairs_map [[1, 2], [1, 2]] ≠ find_pairs_map [[1, 2]] := by decide

/-- C4 (amended): appending a second copy of a declaration (a,b) already
present produces an adjacency map with the same membership — every partner
relation holds after the duplicate iff it held before — though the partner
lists themselves gain duplicate entries, so the maps are not equal. -/
theorem c4_theorem (l : List (List Int)) (a b x y : Int) (hmem : [a, b] ∈ l) :
    y ∈ lookupList (find_pairs_map (l ++ [[a, b]])) x ↔
      y ∈ lookupList (find_pairs_map l) x := by
  have hfold : find_pairs_map (l ++ [[a, b]]) =
      applyDecl (find_pairs_map l) [a, b] := by
    simp [find_pairs_map, List.foldl_append]
  rw [hfold]
  by_cases hz : a = 0 ∧ b = 0
  · obtain ⟨rfl, rfl⟩ := hz
    have hpos : (∀ v ∈ ([0, 0] : List Int), v = 0) ∨ ([0, 0] : List Int).length < 2 := by
      left
      intro v hv
      rcases List.mem_cons.mp hv with h | h
      · exact h
      · simpa using h
    simp only [applyDecl, if_pos hpos]
  · have h2 := mem_fpm_of_decl l a b [] hmem hz
    have hcond : ¬((∀ v ∈ [a, b], v = 0) ∨ ([a, b] : List Int).length < 2) := by
      rintro (hall | hlen)
      · exact hz ⟨hall a (by simp), hall b (by simp)⟩
      · simp at hlen
    simp only [applyDecl, if_neg hcond]
    simp only [mem_lookupList_addPair]
    constructor
    · rintro ((h | ⟨rfl, rfl⟩) | ⟨rfl, rfl⟩)
      · exact h
      · exact h2.1
      · exact h2.2
    · exact fun h => Or.inl (Or.inl h)

/-- C4 witness: with (1,2) declared once, appending the duplicate keeps the
relation 2-in-partners-of-1 unchanged. -/
theorem c4_witness :
    ([1, 2] : List Int) ∈ [[1, 2]] ∧
      (2 ∈ lookupList (find_pairs_map ([[1, 2]] ++ [[1, 2]])) 1 ↔
        2 ∈ lookupList (find_pairs_map [[1, 2]]) 1) :=
  ⟨by decide, c4_theorem [[1, 2]] 1 2 1 2 (by decide)⟩

/-- Every successful `stepPrimary` is an `emit` of a primary row on a state
that differs from the input at most in the `reps` local. -/
theorem stepPrimary_ok_emit (m : List (Int × Exercise)) (e : Int)
    (st st1 : RState) (h : stepPrimary m e st = Except.ok st1) :
    ∃ nm sv r cm rst rl,
      st1 = emit Kind.primary e nm sv r cm rst 8 (setReps st rl) := by
  unfold stepPrimary at h
  split at h
  · split at h
    · cases h
    · exact ⟨_, _, _, _, _, st.repsLoc, (Except.ok.inj h).symm⟩
  · exact ⟨_, _, _, _, _, _, (Except.ok.inj h).symm⟩

/-- Every successful `stepPartner` is an `emit` of a partner row on a state
that differs from the input at most in the `partner_reps` local. -/
theorem stepPartner_ok_emit (m : List (Int × Exercise)) (e : Int)
    (st st1 : RState) (h : stepPartner m e st = Except.ok st1) :
    ∃ nm sv r cm rst rl,
      st1 = emit Kind.partner e nm sv r cm rst 7 (setPartnerReps st rl) := by
  unfold stepPartner at h
  split at h
  · split at h
    · cases h
    · exact ⟨_, _, _, _, _, st.partnerRepsLoc, (Except.ok.inj h).symm⟩
  · exact ⟨_, _, _, _, _, _, (Except.ok.inj h).symm⟩

/-- A successful primary step appends `e` to `rendered` and one primary
entry to the output. -/
theorem stepPrimary_ok_proj (m : List (Int × Exercise)) (e : Int)
    (st st1 : RState) (h : stepPrimary m e st = Except.ok st1) :
    st1.rendered = st.rendered ++ [e] ∧
      st1.out.map entryOf = st.out.map entryOf ++ [(e, Kind.primary)] := by
  obtain ⟨nm, sv, r, cm, rst, rl, rfl⟩ := stepPrimary_ok_emit m e st st1 h
  simp [emit, emitPlacement, entryOf, setReps]

/-- A successful partner step appends `e` to `rendered` and one partner
entry to the output. -/
theorem stepPartner_ok_proj (m : List (Int × Exercise)) (e : Int)
    (st st1 : RState) (h : stepPartner m e st = Except.ok st1) :
    st1.rendered = st.rendered ++ [e] ∧
      st1.out.map entryOf = st.out.map entryOf ++ [(e, Kind.partner)] := by
  obtain ⟨nm, sv, r, cm, rst, rl, rfl⟩ := stepPartner_ok_emit m e st st1 h
  simp [emit, emitPlacement, entryOf, setPartnerReps]

/-- The partner loop appends exactly its input ids to `rendered` and one
partner entry each, in order. -/
theorem processPartners_ok_proj (m : List (Int × Exercise)) (ps : List Int) :
    ∀ st st2, processPartners m ps st = Except.ok st2 →
      st2.rendered = st.rendered ++ ps ∧
        st2.out.map entryOf =
          st.out.map entryOf ++ ps.map (fun q => (q, Kind.partner)) := by
  induction ps with
  | nil =>
      intro st st2 h
      cases h
      simp
  | cons pid ps ih =>
      intro st st2 h
      unfold processPartners at h
      split at h
      · cases h
      · next st1 heq =>
          obtain ⟨h1, h2⟩ := stepPartner_ok_proj m pid st st1 heq
          obtain ⟨h3, h4⟩ := ih st1 st2 h
          rw [h3, h1, h4, h2]
          simp

/-- The main loop's output decomposes as the flattening of the block walk
started from the current `rendered` set. -/
theorem processExercises_ok_proj (m : List (Int × Exercise))
    (pm : List (Int × List Int)) (allEx : List Int) (rest : List Int) :
    ∀ st st2, processExercises m pm allEx rest st = Except.ok st2 →
      st2.out.map entryOf =
        st.out.map entryOf ++ blockEntryList (seqGo pm allEx rest st.rendered) := by
  induction rest with
  | nil =>
      intro st st2 h
      cases h
      simp [seqGo, blockEntryList]
  | cons e rest ih =>
      intro st st2 h
      unfold processExercises at h
      by_cases he : e ∈ st.rendered
      · rw [if_pos he] at h
        rw [ih st st2 h]
        rw [seqGo, if_pos he]
      · rw [if_neg he] at h
        split at h
        · cases h
        · next st1 heq =>
            obtain ⟨hr1, ho1⟩ := stepPrimary_ok_proj m e st st1 heq
            rw [hr1] at h
            split at h
            · next hps =>
                have h2 := ih _ st2 h
                rw [h2]
                rw [seqGo, if_neg he]
                simp only [hps, blockEntryList, hr1, ho1]
                simp
            · next p ps hps =>
                split at h
                · cases h
                · next st3 hpp =>
                    obtain ⟨hr3, ho3⟩ := processPartners_ok_proj m (p :: ps) st1 st3 hpp
                    have h2 := ih _ st2 h
                    rw [h2]
                    rw [seqGo, if_neg he]
                    simp only [hps, blockEntryList]
                    simp only [hr3, hr1, ho3, ho1]
                    simp

/-- A successful render's entry sequence is the flattening of the
sequencer's blocks. -/
theorem render_entries (w : Workout) (m : List (Int × Exercise))
    (pls : List Placement) (hp : List Nat)
    (h : render_workout_pdf w m = Except.ok (pls, hp)) :
    pls.map entryOf =
      blockEntryList (sequenceBlocks w.exercises (find_pairs_map w.paired_sets)) := by
  unfold render_workout_pdf at h
  split at h
  · cases h
  · next st heq =>
      simp only [Except.ok.injEq, Prod.mk.injEq] at h
      obtain ⟨h4, h5⟩ := h
      rw [← h4]
      have h6 := processExercises_ok_proj m (find_pairs_map w.paired_sets)
        w.exercises w.exercises initState st heq
      rw [h6]
      simp [initState, sequenceBlocks]

/-- C6: for every successful render, the placement sequence is exactly the
concatenation of the sequencer's blocks — each block's partner entries
follow its primary entry immediately, with no other block's entries
interleaved, in the filtered insertion order of the adjacency map. -/
theorem c6_theorem (w : Workout) (m : List (Int × Exercise))
    (pls : List Placement) (hp : List Nat)
    (h : render_workout_pdf w m = Except.ok (pls, hp)) :
    pls.map entryOf =
      blockEntryList (sequenceBlocks w.exercises (find_pairs_map w.paired_sets)) :=
  render_entries w m pls hp h

/-- C6 witness: the decomposition instantiated on a three-exercise workout
with one pair. -/
theorem c6_witness :
    (renderOk inputC6w (mkCatalog [1, 2, 3])).1.map entryOf =
      blockEntryList (sequenceBlocks inputC6w.exercises
        (find_pairs_map inputC6w.paired_sets)) :=
  c6_theorem inputC6w (mkCatalog [1, 2, 3])
    (renderOk inputC6w (mkCatalog [1, 2, 3])).1
    (renderOk inputC6w (mkCatalog [1, 2, 3])).2 (by rfl)

/-- The initial state satisfies the pagination invariant. -/
theorem TraceInv_initState : TraceInv initState := by
  refine ⟨?_, ?_, ?_, ?_, ?_, ?_, ?_, ?_, ?_, ?_⟩ <;> simp [initState]

/-- Record updates that only touch the cursor keep the invariant. -/
theorem TraceInv_setY (st : RState) (v : Int) (h : TraceInv st) :
    TraceInv { st with y := v } :=
  ⟨h.ren_eq, h.pages_mono, h.pages_le, h.break_iff, h.draw_y, h.head_mem,
    h.page_mem, h.zero_mem, h.chain, h.last_page⟩

/-- Record updates that only touch the `reps` local keep the invariant. -/
theorem TraceInv_setReps (st : RState) (r : Option String) (h : TraceInv st) :
    TraceInv (setReps st r) :=
  ⟨h.ren_eq, h.pages_mono, h.pages_le, h.break_iff, h.draw_y, h.head_mem,
    h.page_mem, h.zero_mem, h.chain, h.last_page⟩

/-- Record updates that only touch the `partner_reps` local keep the
invariant. -/
theorem TraceInv_setPartnerReps (st : RState) (r : Option String)
    (h : TraceInv st) : TraceInv (setPartnerReps st r) :=
  ⟨h.ren_eq, h.pages_mono, h.pages_le, h.break_iff, h.draw_y, h.head_mem,
    h.page_mem, h.zero_mem, h.chain, h.last_page⟩

/-- Drawing one row preserves the pagination invariant. -/
theorem TraceInv_emit (k : Kind) (i : Int) (nm : String) (sv : Int)
    (r : String) (cm : String) (rst : Option Int) (drop : Int) (st : RState)
    (h : TraceInv st) : TraceInv (emit k i nm sv r cm rst drop st) := by
  have hple : st.page ≤ emitPage st := by
    unfold emitPage
    split <;> omega
  have hpmem : emitPage st ∈
      (if st.y < breakLimit then st.headerPages ++ [st.page + 1]
        else st.headerPages) := by
    unfold emitPage
    by_cases hb : st.y < breakLimit
    · simp [hb]
    · simp [hb]
      exact h.page_mem
  have hsub : ∀ q : Nat, q ∈ st.headerPages →
      q ∈ (if st.y < breakLimit then st.headerPages ++ [st.page + 1]
        else st.headerPages) := by
    intro q hq
    by_cases hb : st.y < breakLimit <;> simp [hb, hq]
  refine ⟨?_, ?_, ?_, ?_, ?_, ?_, ?_, ?_, ?_, ?_⟩
  · simp [emit, emitPlacement, h.ren_eq]
  · simp only [emit, List.map_append, List.map_cons, List.map_nil]
    rw [List.pairwise_append]
    refine ⟨h.pages_mono, by simp, ?_⟩
    intro a ha b hb
    simp only [List.mem_singleton] at hb
    subst hb
    rcases List.mem_map.mp ha with ⟨p, hp, rfl⟩
    exact le_trans (h.pages_le p hp) hple
  · intro p hp
    simp only [emit, List.mem_append, List.mem_singleton] at hp
    rcases hp with hp | hp
    · exact le_trans (h.pages_le p hp) hple
    · subst hp
      simp [emitPlacement, emit]
  · intro p hp
    simp only [emit, List.mem_append, List.mem_singleton] at hp
    rcases hp with hp | hp
    · exact h.break_iff p hp
    · subst hp
      simp [emitPlacement]
  · intro p hp
    simp only [emit, List.mem_append, List.mem_singleton] at hp
    rcases hp with hp | hp
    · exact h.draw_y p hp
    · subst hp
      simp only [emitPlacement, emitY]
      by_cases hb : st.y < breakLimit <;> simp [hb]
  · intro p hp
    simp only [emit, List.mem_append, List.mem_singleton] at hp
    rcases hp with hp | hp
    · exact hsub p.page (h.head_mem p hp)
    · subst hp
      simpa [emitPlacement, emit] using hpmem
  · simpa [emit] using hpmem
  · exact hsub 0 h.zero_mem
  · simp only [emit]
    rw [List.chain'_append]
    refine ⟨h.chain, by simp, ?_⟩
    intro x hx y hy
    simp only [List.head?_cons, Option.mem_def, Option.some.injEq] at hy
    subst hy
    have hxp : x.page = st.page := h.last_page x hx
    simp only [emitPlacement, emitPage]
    by_cases hb : st.y < breakLimit <;> simp [hb, hxp]
  · intro p hp
    simp only [emit] at hp
    rw [List.getLast?_concat] at hp
    have hp2 := Option.some.inj hp
    rw [← hp2]
    simp [emitPlacement, emit]

/-- A successful primary step preserves the pagination invariant. -/
theorem TraceInv_stepPrimary (m : List (Int × Exercise)) (e : Int)
    (st st1 : RState) (h : stepPrimary m e st = Except.ok st1)
    (hi : TraceInv st) : TraceInv st1 := by
  obtain ⟨nm, sv, r, cm, rst, rl, rfl⟩ := stepPrimary_ok_emit m e st st1 h
  exact TraceInv_emit _ _ _ _ _ _ _ _ _ (TraceInv_setReps st rl hi)

/-- A successful partner step preserves the pagination invariant. -/
theorem TraceInv_stepPartner (m : List (Int × Exercise)) (e : Int)
    (st st1 : RState) (h : stepPartner m e st = Except.ok st1)
    (hi : TraceInv st) : TraceInv st1 := by
  obtain ⟨nm, sv, r, cm, rst, rl, rfl⟩ := stepPartner_ok_emit m e st st1 h
  exact TraceInv_emit _ _ _ _ _ _ _ _ _ (TraceInv_setPartnerReps st rl hi)

/-- The partner loop preserves the pagination invariant. -/
theorem TraceInv_processPartners (m : List (Int × Exercise)) (ps : List Int) :
    ∀ st st2, processPartners m ps st = Except.ok st2 →
      TraceInv st → TraceInv st2 := by
  induction ps with
  | nil =>
      intro st st2 h hi
      cases h
      exact hi
  | cons pid ps ih =>
      intro st st2 h hi
      unfold processPartners at h
      split at h
      · cases h
      · next st1 heq =>
          exact ih st1 st2 h (TraceInv_stepPartner m pid st st1 heq hi)

/-- The main loop preserves the pagination invariant. -/
theorem TraceInv_processExercises (m : List (Int × Exercise))
    (pm : List (Int × List Int)) (allEx : List Int) (rest : List Int) :
    ∀ st st2, processExercises m pm allEx rest st = Except.ok st2 →
      TraceInv st → TraceInv st2 := by
  induction rest with
  | nil =>
      intro st st2 h hi
      cases h
      exact hi
  | cons e rest ih =>
      intro st st2 h hi
      unfold processExercises at h
      by_cases he : e ∈ st.rendered
      · rw [if_pos he] at h
        exact ih st st2 h hi
      · rw [if_neg he] at h
        split at h
        · cases h
        · next st1 heq =>
            have hi1 := TraceInv_stepPrimary m e st st1 heq hi
            split at h
            · exact ih _ st2 h (TraceInv_setY st1 _ hi1)
            · split at h
              · cases h
              · next st3 hpp =>
                  have hi3 := TraceInv_processPartners m _ st1 st3 hpp hi1
                  exact ih _ st2 h (TraceInv_setY st3 _ hi3)

/-- A successful render comes from a final loop state satisfying the
pagination invariant. -/
theorem render_ok_inv (w : Workout) (m : List (Int × Exercise))
    (pls : List Placement) (hp : List Nat)
    (h : render_workout_pdf w m = Except.ok (pls, hp)) :
    ∃ st : RState, TraceInv st ∧ st.out = pls ∧ st.headerPages = hp := by
  unfold render_workout_pdf at h
  split at h
  · cases h
  · next st heq =>
      simp only [Except.ok.injEq, Prod.mk.injEq] at h
      exact ⟨st, TraceInv_processExercises m _ w.exercises w.exercises
        initState st heq TraceInv_initState, h.1, h.2⟩

/-- C5 (amended): in every successful render a page break fires immediately
before an entry iff the checked cursor is below `breakLimit = margin + 30`
millimetres — the test is independent of the entry's height; a break bumps
the page index by exactly one and resets the draw cursor to `yTop`, entries
are never split (each is drawn wholly at its recorded cursor), and the
header is drawn on every page an entry lands on, including page 0. -/
theorem c5_theorem (w : Workout) (m : List (Int × Exercise))
    (pls : List Placement) (hp : List Nat)
    (h : render_workout_pdf w m = Except.ok (pls, hp)) :
    (∀ p ∈ pls, ((p.broke = true) ↔ p.yCheck < breakLimit) ∧
        p.yDraw = (if p.broke = true then yTop else p.yCheck) ∧ p.page ∈ hp) ∧
      (0 : Nat) ∈ hp ∧
      List.Chain'
        (fun p q => q.page = if q.broke = true then p.page + 1 else p.page)
        pls := by
  obtain ⟨st, hi, hout, hhp⟩ := render_ok_inv w m pls hp h
  subst hout
  subst hhp
  exact ⟨fun p hpm => ⟨hi.break_iff p hpm, hi.draw_y p hpm, hi.head_mem p hpm⟩,
    hi.zero_mem, hi.chain⟩

/-- C5 witness: the amended pagination contract instantiated on a
one-exercise workout. -/
theorem c5_witness :
    (∀ p ∈ (renderOk inputC5w (mkCatalog [7])).1,
        ((p.broke = true) ↔ p.yCheck < breakLimit) ∧
          p.yDraw = (if p.broke = true then yTop else p.yCheck) ∧
          p.page ∈ (renderOk inputC5w (mkCatalog [7])).2) ∧
      (0 : Nat) ∈ (renderOk inputC5w (mkCatalog [7])).2 ∧
      List.Chain'
        (fun p q => q.page = if q.broke = true then p.page + 1 else p.page)
        (renderOk inputC5w (mkCatalog [7])).1 :=
  c5_theorem inputC5w (mkCatalog [7]) (renderOk inputC5w (mkCatalog [7])).1
    (renderOk inputC5w (mkCatalog [7])).2 (by rfl)

set_option maxRecDepth 8192 in
/-- C5 counterexample: no single page-break threshold makes the spec's test
`cursor - entryHeight < bottomMargin + threshold` reproduce the code's
break decisions — render A draws a primary checked at cursor 42 without a
break (forcing threshold at most 22), while render B breaks before a partner
checked at cursor 41 (forcing threshold above 22). -/
theorem c5_counterexample :
    ¬ ∃ t : ℚ,
      (∀ p ∈ (renderOk inputA catalogA).1,
          ((p.broke = true) ↔ (p.yCheck : ℚ) - entryHeightQ p.kind < 12 + t)) ∧
        (∀ p ∈ (renderOk inputB catalogB).1,
          ((p.broke = true) ↔ (p.yCheck : ℚ) - entryHeightQ p.kind < 12 + t)) := by
  rintro ⟨t, hA, hB⟩
  have h1 : ∃ p ∈ (renderOk inputA catalogA).1,
      p.kind = Kind.primary ∧ p.yCheck = 42 ∧ p.broke = false := by decide
  have h2 : ∃ p ∈ (renderOk inputB catalogB).1,
      p.kind = Kind.partner ∧ p.yCheck = 41 ∧ p.broke = true := by decide
  obtain ⟨p, hpm, hk, hy, hb⟩ := h1
  obtain ⟨q, hqm, qk, qy, qb⟩ := h2
  have e1 := hA p hpm
  have e2 := hB q hqm
  rw [hk, hy, hb] at e1
  rw [qk, qy, qb] at e2
  simp only [entryHeightQ] at e1 e2
  norm_num at e1 e2
  linarith

/-- C9: in every successful render the page indices of the placements are
non-decreasing in emission order — once a page break occurs, no entry is
placed on an earlier page. -/
theorem c9_theorem (w : Workout) (m : List (Int × Exercise))
    (pls : List Placement) (hp : List Nat)
    (h : render_workout_pdf w m = Except.ok (pls, hp)) :
    (pls.map (fun p => p.page)).Pairwise (· ≤ ·) := by
  obtain ⟨st, hi, hout, hhp⟩ := render_ok_inv w m pls hp h
  subst hout
  exact hi.pages_mono

/-- C9 witness: page monotonicity instantiated on a two-exercise workout. -/
theorem c9_witness :
    (((renderOk inputC9w (mkCatalog [3, 5])).1.map (fun p => p.page)).Pairwise
      (· ≤ ·)) :=
  c9_theorem inputC9w (mkCatalog [3, 5])
    (renderOk inputC9w (mkCatalog [3, 5])).1
    (renderOk inputC9w (mkCatalog [3, 5])).2 (by rfl)

/-- Membership in the partner filter of line 123. -/
theorem mem_partnersOf (pm : List (Int × List Int)) (allEx rendered : List Int)
    (e p : Int) :
    p ∈ partnersOf pm allEx rendered e ↔
      p ∈ lookupList pm e ∧ p ∈ allEx ∧ p ∉ rendered := by
  simp [partnersOf, List.mem_filter, decide_eq_true_iff]

/-- Looking up any key of a map whose partner lists are duplicate-free gives
a duplicate-free list. -/
theorem lookupList_nodup (pm : List (Int × List Int))
    (hdf : ∀ kv ∈ pm, kv.2.Nodup) (k : Int) : (lookupList pm k).Nodup := by
  induction pm with
  | nil => simp [lookupList]
  | cons kv rest ih =>
      by_cases h : kv.1 = k
      · rw [lookupList, if_pos h]
        exact hdf kv (by simp)
      · rw [lookupList, if_neg h]
        exact ih (fun x hx => hdf x (by simp [hx]))

/-- The partner list of a block is duplicate-free when the adjacency map's
partner lists are. -/
theorem partnersOf_nodup (pm : List (Int × List Int)) (allEx rendered : List Int)
    (e : Int) (hdf : ∀ kv ∈ pm, kv.2.Nodup) :
    (partnersOf pm allEx rendered e).Nodup :=
  (lookupList_nodup pm hdf e).filter _

/-- With duplicate-free partner lists, the block walk emits no id twice and
never emits an id already rendered. -/
theorem seqGo_nodup (pm : List (Int × List Int)) (allEx : List Int)
    (hdf : ∀ kv ∈ pm, kv.2.Nodup) :
    ∀ (rest rendered : List Int),
      (blockIds (seqGo pm allEx rest rendered)).Nodup ∧
        ∀ x ∈ blockIds (seqGo pm allEx rest rendered), x ∉ rendered := by
  intro rest
  induction rest with
  | nil =>
      intro rendered
      simp [seqGo, blockIds]
  | cons e rest ih =>
      intro rendered
      by_cases he : e ∈ rendered
      · rw [seqGo, if_pos he]
        exact ih rendered
      · rw [seqGo, if_neg he]
        simp only [blockIds]
        obtain ⟨ihn, iha⟩ := ih (rendered ++ e :: partnersOf pm allEx (rendered ++ [e]) e)
        have hpn : (partnersOf pm allEx (rendered ++ [e]) e).Nodup :=
          partnersOf_nodup pm allEx (rendered ++ [e]) e hdf
        have hpe : e ∉ partnersOf pm allEx (rendered ++ [e]) e := by
          intro hc
          have := (mem_partnersOf pm allEx (rendered ++ [e]) e e).mp hc
          exact this.2.2 (by simp)
        constructor
        · rw [List.nodup_cons]
          constructor
          · intro hc
            rcases List.mem_append.mp hc with hc | hc
            · exact hpe hc
            · exact iha e hc (by simp)
          · rw [List.nodup_append]
            refine ⟨hpn, ihn, ?_⟩
            intro a ha hc
            exact iha a hc (by simp [ha])
        · intro x hx
          rcases List.mem_cons.mp hx with rfl | hx
          · exact he
          · rcases List.mem_append.mp hx with hx | hx
            · intro hc
              have := (mem_partnersOf pm allEx (rendered ++ [e]) e x).mp hx
              exact this.2.2 (by simp [hc])
            · intro hc
              exact iha x hx (by simp [hc])

/-- Every id of the remaining exercise list is either already rendered or
emitted by the block walk. -/
theorem seqGo_complete (pm : List (Int × List Int)) (allEx : List Int) :
    ∀ (rest rendered : List Int) (x : Int), x ∈ rest →
      x ∈ rendered ∨ x ∈ blockIds (seqGo pm allEx rest rendered) := by
  intro rest
  induction rest with
  | nil => simp
  | cons e rest ih =>
      intro rendered x hx
      by_cases he : e ∈ rendered
      · rw [seqGo, if_pos he]
        rcases List.mem_cons.mp hx with rfl | hx
        · exact Or.inl he
        · exact ih rendered x hx
      · rw [seqGo, if_neg he]
        simp only [blockIds]
        rcases List.mem_cons.mp hx with rfl | hx
        · exact Or.inr (by simp)
        · rcases ih (rendered ++ e :: partnersOf pm allEx (rendered ++ [e]) e) x hx
            with hr | hb
          · rcases List.mem_append.mp hr with hr | hr
            · exact Or.inl hr
            · rcases List.mem_cons.mp hr with rfl | hr
              · exact Or.inr (by simp)
              · exact Or.inr (by simp [hr])
          · exact Or.inr (by simp [hb])

/-- Every id the block walk emits comes from the remaining exercise list or
from the full list (partners are filtered to it). -/
theorem seqGo_subset (pm : List (Int × List Int)) (allEx : List Int) :
    ∀ (rest rendered : List Int) (x : Int),
      x ∈ blockIds (seqGo pm allEx rest rendered) → x ∈ rest ∨ x ∈ allEx := by
  intro rest
  induction rest with
  | nil =>
      intro rendered x hx
      simp [seqGo, blockIds] at hx
  | cons e rest ih =>
      intro rendered x hx
      by_cases he : e ∈ rendered
      · rw [seqGo, if_pos he] at hx
        rcases ih rendered x hx with hr | hr
        · exact Or.inl (by simp [hr])
        · exact Or.inr hr
      · rw [seqGo, if_neg he] at hx
        simp only [blockIds] at hx
        rcases List.mem_cons.mp hx with rfl | hx
        · exact Or.inl (by simp)
        · rcases List.mem_append.mp hx with hx | hx
          · have := (mem_partnersOf pm allEx (rendered ++ [e]) e x).mp hx
            exact Or.inr this.2.1
          · rcases ih _ x hx with hr | hr
            · exact Or.inl (by simp [hr])
            · exact Or.inr hr

/-- Flattening the entry view of blocks onto ids. -/
theorem blockEntryList_map_fst (bs : List Block) :
    (blockEntryList bs).map Prod.fst = blockIds bs := by
  induction bs with
  | nil => simp [blockEntryList, blockIds]
  | cons b bs ih =>
      simp [blockEntryList, blockIds, ih, List.map_map, Function.comp_def]

/-- The id multiset of a successful render: with duplicate-free partner
lists, each listed exercise id occurs exactly once and nothing else
occurs. -/
theorem render_count (w : Workout) (m : List (Int × Exercise))
    (pls : List Placement) (hp : List Nat)
    (hdf : ∀ kv ∈ find_pairs_map w.paired_sets, kv.2.Nodup)
    (h : render_workout_pdf w m = Except.ok (pls, hp)) (x : Int) :
    (pls.map (fun p => p.exId)).count x = (if x ∈ w.exercises then 1 else 0) := by
  have hids : pls.map (fun p => p.exId) =
      blockIds (sequenceBlocks w.exercises (find_pairs_map w.paired_sets)) := by
    have h1 := render_entries w m pls hp h
    have h2 : pls.map (fun p => p.exId) = (pls.map entryOf).map Prod.fst := by
      simp [entryOf, List.map_map]
    rw [h2, h1, blockEntryList_map_fst]
  rw [hids]
  have hn := seqGo_nodup (find_pairs_map w.paired_sets) w.exercises hdf
    w.exercises []
  by_cases hx : x ∈ w.exercises
  · rw [if_pos hx]
    rcases seqGo_complete (find_pairs_map w.paired_sets) w.exercises
        w.exercises [] x hx with hc | hc
    · simp at hc
    · exact List.count_eq_one_of_mem hn.1 hc
  · rw [if_neg hx]
    rw [List.count_eq_zero]
    intro hc
    rcases seqGo_subset (find_pairs_map w.paired_sets) w.exercises
        w.exercises [] x hc with hr | hr
    · exact hx hr
    · exact hx hr

/-- C1 counterexample: the workout listing exercises [2, 4] with the pair
(2, 4) declared twice renders the id sequence [2, 4, 4] — identifier 4,
present once in the list, is rendered in two entries. -/
theorem c1_counterexample :
    renderIds inputC1 (mkCatalog [2, 4]) = [2, 4, 4] ∧
      (renderIds inputC1 (mkCatalog [2, 4])).count 4 = 2 ∧
      inputC1.exercises.count 4 = 1 :=
  ⟨by decide, by decide, by decide⟩

/-- C1 (amended): provided no pair declaration is duplicated (each partner
list of the adjacency map is duplicate-free) and the render completes
without the unbound-reps error, every exercise identifier of the workout's
list appears in exactly one rendered entry and no other identifier appears
at all. -/
theorem c1_theorem (w : Workout) (m : List (Int × Exercise))
    (pls : List Placement) (hp : List Nat)
    (hdf : ∀ kv ∈ find_pairs_map w.paired_sets, kv.2.Nodup)
    (h : render_workout_pdf w m = Except.ok (pls, hp)) (x : Int) :
    (pls.map (fun p => p.exId)).count x = (if x ∈ w.exercises then 1 else 0) :=
  render_count w m pls hp hdf h x

/-- C1 witness: the partition property instantiated on a two-exercise
workout with one pair. -/
theorem c1_witness :
    ((renderOk inputC1w (mkCatalog [1, 2])).1.map (fun p => p.exId)).count 1 =
      (if (1 : Int) ∈ inputC1w.exercises then 1 else 0) :=
  c1_theorem inputC1w (mkCatalog [1, 2])
    (renderOk inputC1w (mkCatalog [1, 2])).1
    (renderOk inputC1w (mkCatalog [1, 2])).2 (by decide) (by rfl) 1

/-- C2: rendering a workout whose first exercise id is absent from the
catalog does not produce a placeholder entry — the draw call reads the
never-assigned local `reps` and the render fails with UnboundLocalError. -/
theorem c2_theorem :
    render_workout_pdf inputC2 [] = Except.error "UnboundLocalError" := by rfl

/-- C10 counterexample: with exercise 4 listed twice and its pair (2, 4)
declared twice, identifier 4 is rendered twice, not once. -/
theorem c10_counterexample :
    2 ≤ inputC10.exercises.count 4 ∧
      (renderIds inputC10 (mkCatalog [2, 4])).count 4 = 2 :=
  ⟨by decide, by decide⟩

/-- C10 (amended): repeated occurrences of an identifier in the exercise
list beyond the first are skipped via the rendered set, so provided no pair
declaration is duplicated and the render completes without error, an
identifier listed more than once is still rendered exactly once. -/
theorem c10_theorem (w : Workout) (m : List (Int × Exercise))
    (pls : List Placement) (hp : List Nat) (x : Int)
    (hdf : ∀ kv ∈ find_pairs_map w.paired_sets, kv.2.Nodup)
    (h : render_workout_pdf w m = Except.ok (pls, hp))
    (hdup : 2 ≤ w.exercises.count x) :
    (pls.map (fun p => p.exId)).count x = 1 := by
  have hpos : 0 < w.exercises.count x := lt_of_lt_of_le (by norm_num) hdup
  have hx : x ∈ w.exercises := List.count_pos_iff.mp hpos
  have := render_count w m pls hp hdf h x
  rw [if_pos hx] at this
  exact this

/-- C10 witness: exercise 5 listed twice renders exactly once. -/
theorem c10_witness :
    ((renderOk inputC10w (mkCatalog [5])).1.map (fun p => p.exId)).count 5 = 1 :=
  c10_theorem inputC10w (mkCatalog [5])
    (renderOk inputC10w (mkCatalog [5])).1
    (renderOk inputC10w (mkCatalog [5])).2 5 (by decide) (by rfl) (by decide)

/-- First-occurrence index distributes over an append when the value is not
in the prefix. -/
theorem firstIdx_append_of_not_mem (done l : List Int) (x : Int)
    (hx : x ∉ done) : firstIdx (done ++ l) x = done.length + firstIdx l x := by
  induction done with
  | nil => simp [firstIdx]
  | cons d done ih =>
      have hd : d ≠ x := by
        intro h
        exact hx (by simp [h])
      have hx2 : x ∉ done := fun h => hx (by simp [h])
      show (if d = x then 0 else firstIdx (done ++ l) x + 1) =
        (d :: done).length + firstIdx l x
      rw [if_neg hd, ih hx2, List.length_cons]
      omega

/-- The block walk emits blocks in strictly increasing order of the first
occurrence of their primary, the primary is the first-occurring member of
its block, and block primaries never point before the already-consumed
prefix. -/
theorem seqGo_order (pm : List (Int × List Int)) (allEx : List Int) :
    ∀ (rest rendered done : List Int),
      allEx = done ++ rest → (∀ x ∈ done, x ∈ rendered) →
      ((seqGo pm allEx rest rendered).map
          (fun b => firstIdx allEx b.primary)).Pairwise (· < ·) ∧
        ∀ b ∈ seqGo pm allEx rest rendered,
          done.length ≤ firstIdx allEx b.primary ∧
            ∀ q ∈ b.partners, firstIdx allEx b.primary < firstIdx allEx q := by
  intro rest
  induction rest with
  | nil =>
      intro rendered done h1 h2
      simp [seqGo]
  | cons e rest ih =>
      intro rendered done h1 h2
      by_cases he : e ∈ rendered
      · rw [seqGo, if_pos he]
        have h1b : allEx = (done ++ [e]) ++ rest := by simp [h1]
        have h2b : ∀ x ∈ done ++ [e], x ∈ rendered := by
          intro x hx
          rcases List.mem_append.mp hx with hx | hx
          · exact h2 x hx
          · simp only [List.mem_singleton] at hx
            subst hx
            exact he
        obtain ⟨ihp, ihb⟩ := ih rendered (done ++ [e]) h1b h2b
        refine ⟨ihp, ?_⟩
        intro b hb
        obtain ⟨hlen, hq⟩ := ihb b hb
        simp only [List.length_append, List.length_cons, List.length_nil] at hlen
        exact ⟨by omega, hq⟩
      · rw [seqGo, if_neg he]
        have hedone : e ∉ done := fun hc => he (h2 e hc)
        have hidx : firstIdx allEx e = done.length := by
          rw [h1, firstIdx_append_of_not_mem done _ e hedone]
          simp [firstIdx]
        have h1b : allEx = (done ++ [e]) ++ rest := by simp [h1]
        have h2b : ∀ x ∈ done ++ [e],
            x ∈ rendered ++ e :: partnersOf pm allEx (rendered ++ [e]) e := by
          intro x hx
          rcases List.mem_append.mp hx with hx | hx
          · exact List.mem_append.mpr (Or.inl (h2 x hx))
          · simp only [List.mem_singleton] at hx
            subst hx
            simp
        obtain ⟨ihp, ihb⟩ :=
          ih (rendered ++ e :: partnersOf pm allEx (rendered ++ [e]) e)
            (done ++ [e]) h1b h2b
        have hpq : ∀ q ∈ partnersOf pm allEx (rendered ++ [e]) e,
            done.length < firstIdx allEx q := by
          intro q hq
          have hmq := (mem_partnersOf pm allEx (rendered ++ [e]) e q).mp hq
          have hqd : q ∉ done := fun hc => hmq.2.2 (by simp [h2 q hc])
          have hqe : e ≠ q := fun hc => hmq.2.2 (by simp [hc])
          rw [h1, firstIdx_append_of_not_mem done _ q hqd]
          simp only [firstIdx, if_neg hqe]
          omega
        constructor
        · simp only [List.map_cons]
          rw [List.pairwise_cons]
          constructor
          · intro a ha
            rcases List.mem_map.mp ha with ⟨b, hb, rfl⟩
            have h5 := (ihb b hb).1
            simp only [List.length_append, List.length_cons,
              List.length_nil] at h5
            show firstIdx allEx e < firstIdx allEx b.primary
            omega
          · exact ihp
        · intro b hb
          rcases List.mem_cons.mp hb with rfl | hb
          · constructor
            · exact le_of_eq hidx.symm
            · show ∀ q ∈ partnersOf pm allEx (rendered ++ [e]) e,
                firstIdx allEx e < firstIdx allEx q
              intro q hq
              rw [hidx]
              exact hpq q hq
          · obtain ⟨hlen, hq⟩ := ihb b hb
            simp only [List.length_append, List.length_cons,
              List.length_nil] at hlen
            exact ⟨by omega, hq⟩

/-- C7: blocks are emitted in the order of the first occurrence, in workout
order, of any of their members — the primary is the earliest member and the
primaries' first-occurrence indices strictly increase — and in particular
the workout [1,2,3,4] with pair (2,4) yields the blocks
(1), (2 with partner 4), (3) and the entry order 1, 2, 4, 3. -/
theorem c7_theorem :
    (∀ (exercises : List Int) (pm : List (Int × List Int)),
        ((sequenceBlocks exercises pm).map
            (fun b => firstIdx exercises b.primary)).Pairwise (· < ·) ∧
          ∀ b ∈ sequenceBlocks exercises pm, ∀ q ∈ b.partners,
            firstIdx exercises b.primary < firstIdx exercises q) ∧
      sequenceBlocks inputC7.exercises (find_pairs_map inputC7.paired_sets) =
          [{ primary := 1, partners := [] }, { primary := 2, partners := [4] },
            { primary := 3, partners := [] }] ∧
        renderIds inputC7 (mkCatalog [1, 2, 3, 4]) = [1, 2, 4, 3] := by
  constructor
  · intro exercises pm
    obtain ⟨hp, hb⟩ :=
      seqGo_order pm exercises exercises [] [] (by simp) (by simp)
    exact ⟨hp, fun b hbm => (hb b hbm).2⟩
  · exact ⟨by decide, by decide⟩

/-- C7 witness: in the example workout, the primary 2 of the paired block
occurs before its partner 4. -/
theorem c7_witness :
    firstIdx inputC7.exercises 2 < firstIdx inputC7.exercises 4 :=
  (c7_theorem.1 inputC7.exercises (find_pairs_map inputC7.paired_sets)).2
    { primary := 2, partners := [4] } (by decide) 4 (by decide)

end FitnessWorkout
